import Mathlib

/-
Shallow embedding of the kachery-daemon core (content-addressed storage
manager, subfeed manager, hub interface) for checking the natural-language
specification against the code.

Byte buffers are modelled as lists of naturals, SHA-1 digests and paths as
strings.  Hash functions are passed as explicit parameters so that every
definition stays executable.  Filesystem state is modelled as association
lists from path to content; side effects of a single operation are recorded
in small effect records.
-/

namespace Kachery

/-- Substring helper: the characters of s from index i, n of them.  Models the
JS indexing s[i] via strSlice s i 1 and pairs s[i]s[i+1] via strSlice s i 2. -/
def strSlice (s : String) (i n : Nat) : String :=
  String.mk ((s.toList.drop i).take n)

/-- Content path of a sha1 in the local store, from KacheryStorageManager:
storageDir/sha1/aa/bb/cc/sha1 where aa, bb, cc are the first three hex-pair
prefixes of the hash. -/
def fanoutContentPath (storageDir s : String) : String :=
  storageDir ++ "/sha1/" ++ strSlice s 0 2 ++ "/" ++ strSlice s 2 2 ++ "/" ++ strSlice s 4 2 ++ "/" ++ s

/- ===================== C6: getSubfeedPath (KacheryHubInterface.ts) ====== -/

/-- Translation of getSubfeedPath in KacheryHubInterface.ts.  In the source the
template literal is written with plain braces and no dollar signs, so f and s
are NOT interpolated: the function returns the literal text of the template,
independent of its arguments.  There is also a doubled slash between the
second and third fan-out component of the subfeed hash. -/
def getSubfeedPath (feedId subfeedHash : String) : String :=
  let _f := feedId
  let _s := subfeedHash
  "feeds/\x7bf[0]\x7d\x7bf[1]\x7d/\x7bf[2]\x7d\x7bf[3]\x7d/\x7bf[4]\x7d\x7bf[5]\x7d/\x7bf\x7d/subfeeds/\x7bs[0]\x7d\x7bs[1]\x7d/\x7bs[2]\x7d\x7bs[3]\x7d//\x7bs[4]\x7d\x7bs[5]\x7d/\x7bs\x7d"

/-- Modelled from the spec: the intended bucket object path for a subfeed,
feeds/aa/bb/cc/feedId/subfeeds/aa/bb/cc/subfeedHash with aa, bb, cc the first
three 2-hex-character prefixes of feedId and of subfeedHash respectively.
The corresponding fan-out computation is missing from the source because the
template literal in getSubfeedPath lacks the interpolation markers. -/
def getSubfeedPathIntended (feedId subfeedHash : String) : String :=
  "feeds/" ++ strSlice feedId 0 2 ++ "/" ++ strSlice feedId 2 2 ++ "/" ++ strSlice feedId 4 2 ++ "/" ++ feedId ++
  "/subfeeds/" ++ strSlice subfeedHash 0 2 ++ "/" ++ strSlice subfeedHash 2 2 ++ "/" ++ strSlice subfeedHash 4 2 ++ "/" ++ subfeedHash

/-- Concrete 64-hex feed id used as a failing input. -/
def feedId0 : String := "0123456789abcdef0123456789abcdef0123456789abcdef0123456789abcdef"

/-- Concrete 40-hex subfeed hash used as a failing input. -/
def subfeedHash0 : String := "fedcba9876543210fedcba9876543210fedcba98"

/- ============ C2: storeFileFromStream manifest builder (CAS) ============ -/

/-- The fixed chunk size of the streaming manifest builder. -/
def chunkSize : Nat := 20000000

/-- One manifest chunk.  The stop field is named end in the source; end is a
reserved word in Lean. -/
structure FileManifestChunk where
  start : Nat
  stop : Nat
  sha1 : String
deriving DecidableEq

/-- The manifestData accumulator of storeFileFromStream together with the
emitted manifestChunks: the pending buffers, byte1 (the end offset of the
last emitted chunk, which is the global offset of the pending data), byte2
(the total number of bytes received so far), and the chunks emitted. -/
structure ManifestBuilderState where
  buffers : List (List Nat)
  byte1 : Nat
  byte2 : Nat
  chunks : List FileManifestChunk
deriving DecidableEq

def initManifestState : ManifestBuilderState := ⟨[], 0, 0, []⟩

/-- The inner for loop of updateManifestChunks: walk the concatenated
pending data d in chunkSize steps from global offset b1.  A slice of exactly
chunkSize bytes, or any slice when final, is emitted as a chunk (advancing
byte1); a shorter slice when not final is pushed back as the pending buffer,
which also ends the walk.  Returns the emitted chunks, the new pending
buffers and the new byte1.  Written with explicit fuel so the definition is
structural; fuel of at least the length of d suffices because every
recursive call drops at least one byte. -/
def emitLoop (hash : List Nat → String) (final : Bool) :
    Nat → List Nat → Nat → (List FileManifestChunk × List (List Nat) × Nat)
  | 0, _, b1 => ([], [], b1)
  | _ + 1, [], b1 => ([], [], b1)
  | fuel + 1, d, b1 =>
    let x := d.take chunkSize
    if x.length = chunkSize ∨ final = true then
      let r := emitLoop hash final fuel (d.drop chunkSize) (b1 + x.length)
      (⟨b1, b1 + x.length, hash x⟩ :: r.1, r.2.1, r.2.2)
    else ([], [x], b1)

/-- Translation of updateManifestChunks: when at least one full chunk is
pending, or the stream is final and any data is pending, concatenate the
pending buffers and run the emit loop over them. -/
def updateManifestChunks (hash : List Nat → String) (final : Bool)
    (st : ManifestBuilderState) : ManifestBuilderState :=
  if chunkSize ≤ st.byte2 - st.byte1 ∨ (final = true ∧ st.byte1 < st.byte2) then
    { buffers :=
        (emitLoop hash final (st.buffers.flatten.length + 1) st.buffers.flatten st.byte1).2.1,
      byte1 :=
        (emitLoop hash final (st.buffers.flatten.length + 1) st.buffers.flatten st.byte1).2.2,
      byte2 := st.byte2,
      chunks := st.chunks ++
        (emitLoop hash final (st.buffers.flatten.length + 1) st.buffers.flatten st.byte1).1 }
  else st

/-- The onData handler of storeFileFromStream restricted to the manifest
builder: push the buffer, advance byte2, update with final false. -/
def manifestOnData (hash : List Nat → String) (st : ManifestBuilderState)
    (buf : List Nat) : ManifestBuilderState :=
  updateManifestChunks hash false
    { st with buffers := st.buffers ++ [buf], byte2 := st.byte2 + buf.length }

/-- The manifest builder state when storeFileFromStream finishes: every data
buffer handled in order, then the final update performed by nextStep inside
onFinished. -/
def processStream (hash : List Nat → String) (bufs : List (List Nat)) :
    ManifestBuilderState :=
  updateManifestChunks hash true (bufs.foldl (manifestOnData hash) initManifestState)

/-- The manifestSha1 returned by storeFileFromStream: null unless the chunk
count exceeds 1, in which case the serialized manifest (abstracted by mhash
over its size and chunk list) is hashed and stored. -/
def streamManifestSha1 (hash : List Nat → String)
    (mhash : Nat → List FileManifestChunk → String)
    (bufs : List (List Nat)) : Option String :=
  let st := processStream hash bufs
  if 1 < st.chunks.length then some (mhash st.byte2 st.chunks) else none

/-- The chunk list consists of contiguous chunks of exactly chunkSize bytes
starting at offset b0 and ending at offset b1. -/
def chunksFullFrom : List FileManifestChunk → Nat → Nat → Prop
  | [], b0, b1 => b1 = b0
  | c :: rest, b0, b1 =>
    c.start = b0 ∧ c.stop = b0 + chunkSize ∧ chunksFullFrom rest (b0 + chunkSize) b1

/-- The chunk list partitions the byte range from offset b0 to n: chunks are
contiguous, each spans at most chunkSize bytes, every chunk but the last
spans exactly chunkSize bytes, and the last chunk ends at n (when the list
is empty, b0 = n). -/
def chunksPartition : List FileManifestChunk → Nat → Nat → Prop
  | [], b0, n => b0 = n
  | c :: rest, b0, n =>
    c.start = b0 ∧ c.stop ≤ b0 + chunkSize ∧ (rest ≠ [] → c.stop = b0 + chunkSize) ∧
    chunksPartition rest c.stop n

/-- Invariant of the manifest builder state between onData events: the
emitted chunks are full chunks covering exactly the bytes before byte1, the
pending data has byte2 - byte1 bytes, and less than a full chunk is
pending. -/
def manifestInv (st : ManifestBuilderState) : Prop :=
  chunksFullFrom st.chunks 0 st.byte1 ∧
  st.byte2 = st.byte1 + st.buffers.flatten.length ∧
  st.buffers.flatten.length < chunkSize

/- ============ C3: storeFileFromBucketUrl end handler (CAS) ============== -/

/-- Effects observable from the stream-end handler of storeFileFromBucketUrl. -/
structure BucketDlEffects where
  errored : Bool
  ended : Bool
  tempDeleted : Bool
  installed : Bool
  reportedStored : Bool
deriving DecidableEq

def bucketDlStart : BucketDlEffects :=
  ⟨false, false, false, false, false⟩

/-- The local helper cleanup of storeFileFromBucketUrl: unlink the temp file
(silently ignoring a failure). -/
def bucketCleanup (e : BucketDlEffects) : BucketDlEffects :=
  { e with tempDeleted := true }

/-- The local helper reportError: cleanup then signal the error on the
returned DataStreamy. -/
def bucketReportError (e : BucketDlEffects) : BucketDlEffects :=
  let e1 := bucketCleanup e
  { e1 with errored := true }

/-- The local helper reportDone: cleanup, end the stream and fan out the
onFileStored callbacks. -/
def bucketReportDone (e : BucketDlEffects) : BucketDlEffects :=
  let e1 := bucketCleanup e
  { e1 with ended := true, reportedStored := true }

/-- Translation of the end event handler of storeFileFromBucketUrl
(KacheryStorageManager.ts): compare the computed sha1 with the expected one;
on mismatch report an error (deleting the temp file); otherwise install the
temp file at the content path unless it already exists.  destExists models
fs.existsSync destPath, renameOk models success of renameAndCheck (on whose
success the file is installed at the content path). -/
def storeFileFromBucketUrlOnEnd (computedSha1 expectedSha1 : String)
    (destExists renameOk : Bool) : BucketDlEffects :=
  if computedSha1 ≠ expectedSha1 then
    bucketReportError bucketDlStart
  else if destExists then
    bucketReportDone bucketDlStart
  else if renameOk then
    bucketReportDone { bucketDlStart with installed := true }
  else
    bucketReportError bucketDlStart

/- ============ C4: concatenateChunksAndStoreResult (CAS) ================= -/

inductive ConcatResult where
  | ok
  | errMissingChunk
  | errSha1Mismatch
  | errRename
deriving DecidableEq

/-- Effects observable from one call of concatenateChunksAndStoreResult. -/
structure ConcatEffects where
  result : ConcatResult
  tempCreated : Bool
  tempDeleted : Bool
  installed : Bool
  reportedStored : Bool
deriving DecidableEq

/-- Translation of concatenateChunksAndStoreResult (KacheryStorageManager.ts).
store gives the locally present content for each chunk sha1 (findFile);
hash is the SHA-1 function.  If the destination already exists the call
returns at once.  Then each chunk is checked for presence, the temp file is
created, all chunks are streamed into it while accumulating the hash, and on
end-of-stream the computed hash is compared with the expected one: on
mismatch the promise is rejected -- note the source does NOT unlink the temp
file on this path.  Otherwise the destination is re-checked (destExistsAtEnd)
-- if present the temp file is unlinked and the call returns -- and finally
the temp file is renamed into place (renameOk models renameAndCheck). -/
def concatenateChunksAndStoreResult (hash : List Nat → String)
    (store : String → Option (List Nat)) (sha1 : String)
    (chunkSha1s : List String) (destExists destExistsAtEnd renameOk : Bool) :
    ConcatEffects :=
  if destExists then ⟨.ok, false, false, false, false⟩
  else if chunkSha1s.any (fun c => (store c).isNone) then
    ⟨.errMissingChunk, false, false, false, false⟩
  else
    let data := (chunkSha1s.map (fun c => (store c).getD [])).flatten
    let sha1Computed := hash data
    if sha1Computed ≠ sha1 then ⟨.errSha1Mismatch, true, false, false, false⟩
    else if destExistsAtEnd then ⟨.ok, true, true, false, false⟩
    else if renameOk then ⟨.ok, true, false, true, true⟩
    else ⟨.errRename, true, false, false, false⟩

/- ============ C9: link-file resolution (CAS findFile) =================== -/

/-- The link object JSON written next to a content path, as validated by
isLinkObject in KacheryStorageManager.ts. -/
structure LinkObjectM where
  path : String
  manifestSha1 : Option String
  statSize : Nat
  statMtime : Nat
deriving DecidableEq

/-- Filesystem view relevant to resolving one sha1: the size of the direct
content file when present, the parsed content of the .link file (outer none:
no link file; some none: unreadable or not a link object), and the stat
results for external paths. -/
structure LinkFsView where
  directSize : Option Nat
  linkFile : Option (Option LinkObjectM)
  externalStat : List (String × Nat)
deriving DecidableEq

def lookupStat (l : List (String × Nat)) (p : String) : Option Nat :=
  (l.find? (fun q => q.1 == p)).map (fun q => q.2)

/-- Translation of KacheryStorageManager getLocalFileInfo2: if the link file
exists and parses as a link object, stat the referenced external path and,
when the stat succeeds, return that path together with the CURRENT size.
The recorded stat in the link object is not consulted. -/
def getLocalFileInfo2 (fs : LinkFsView) : Option (String × Nat) :=
  match fs.linkFile with
  | none => none
  | some none => none
  | some (some x) =>
    match lookupStat fs.externalStat x.path with
    | none => none
    | some sz => some (x.path, sz)

/-- Translation of findFile (sha1 branch) composed with getLocalFileInfo:
the direct content path is tried first, then the link file.  Returns the
found flag together with the size. -/
def findFileLinked (fs : LinkFsView) : Bool × Nat :=
  match fs.directSize with
  | some sz => (true, sz)
  | none =>
    match getLocalFileInfo2 fs with
    | some q => (true, q.2)
    | none => (false, 0)

/-- Concrete filesystem view where the link records size 10 but the external
file currently stats with size 20. -/
def linkFsMismatch : LinkFsView :=
  { directSize := none
    linkFile := some (some { path := "/ext/data", manifestSha1 := none, statSize := 10, statMtime := 0 })
    externalStat := [("/ext/data", 20)] }

/- ============ C10: storeFile (buffer ingest, CAS) ======================= -/

/-- Association-list filesystem: path to content bytes. -/
abbrev FsMap := List (String × List Nat)

def fsHas (fs : FsMap) (p : String) : Bool :=
  (fs.find? (fun q => q.1 == p)).isSome

def fsGet (fs : FsMap) (p : String) : Option (List Nat) :=
  (fs.find? (fun q => q.1 == p)).map (fun q => q.2)

/-- Translation of storeFile (KacheryStorageManager.ts): compute the content
path from the GIVEN sha1 (the data is never hashed), return unchanged if the
destination already exists, otherwise write the data there (temp write plus
rename in the source) and report onFileStored with the given sha1.  The
second component lists the sha1 values fanned out to onFileStored. -/
def storeFile (storageDir sha1 : String) (data : List Nat) (fs : FsMap) :
    FsMap × List String :=
  let destPath := fanoutContentPath storageDir sha1
  if fsHas fs destPath then (fs, [])
  else ((destPath, data) :: fs, [sha1])

/-- Translation of findFile restricted to the direct content path (the
getLocalFileInfo1 route): found together with the stat size. -/
def findFileDirect (storageDir sha1 : String) (fs : FsMap) : Bool × Nat :=
  match fsGet fs (fanoutContentPath storageDir sha1) with
  | some d => (true, d.length)
  | none => (false, 0)

/- ============ C5: role/permission gating (KacheryHubInterface) ========== -/

structure HubPermissions where
  requestFiles : Bool
  provideFiles : Bool
  requestFeeds : Bool
  provideFeeds : Bool
deriving DecidableEq

structure HubRoles where
  requestFiles : Bool
  provideFiles : Bool
  requestFeeds : Bool
  provideFeeds : Bool
deriving DecidableEq

structure HubAuthorization where
  permissions : HubPermissions
deriving DecidableEq

structure HubChannelMembership where
  channelName : String
  channelBucketUri : Option String
  roles : HubRoles
  authorization : Option HubAuthorization
deriving DecidableEq

structure HubNodeConfig where
  channelMemberships : Option (List HubChannelMembership)
deriving DecidableEq

/-- The idiom (nodeConfig.channelMemberships || []) used throughout the hub
interface. -/
def memberships (cfg : HubNodeConfig) : List HubChannelMembership :=
  cfg.channelMemberships.getD []

/-- The publish condition of the loop in requestFileFromChannels
(KacheryHubInterface.ts lines 95-104): (au) and (au.permissions.requestFiles).
The roles field is not consulted there. -/
def publishesRequestFile (cm : HubChannelMembership) : Bool :=
  match cm.authorization with
  | some au => au.permissions.requestFiles
  | none => false

/-- The pubsub (channelName, pubsubChannelName) pairs that
requestFileFromChannels publishes a requestFile message to. -/
def requestFilePublishTargets (cfg : HubNodeConfig) : List (String × String) :=
  (memberships cfg).filterMap (fun cm =>
    if publishesRequestFile cm then some (cm.channelName, cm.channelName ++ "-requestFiles") else none)

/-- Translation of getChannelMembership: the first membership with the given
channel name. -/
def getChannelMembershipM (cfg : HubNodeConfig) (channelName : String) :
    Option HubChannelMembership :=
  ((memberships cfg).filter (fun cm => cm.channelName == channelName)).head?

/-- Translation of the requestFile branch of handleKacheryHubPubsubMessage:
drop the message when the pubsub sub-channel is not channelName-requestFiles,
when the node has no membership for the channel, or when the membership has
no bucket URI; otherwise dispatch to the onIncomingFileRequest callbacks.
Neither roles.provideFiles nor permissions.provideFiles is consulted. -/
def handleRequestFileDispatches (cfg : HubNodeConfig)
    (channelName pubsubChannelName : String) : Bool :=
  if pubsubChannelName ≠ channelName ++ "-requestFiles" then false
  else
    match getChannelMembershipM cfg channelName with
    | none => false
    | some cm => cm.channelBucketUri.isSome

/-- Concrete membership: all roles false, permission requestFiles true,
permission provideFiles false, bucket URI present. -/
def cmNoRoles : HubChannelMembership :=
  { channelName := "ch1"
    channelBucketUri := some "gs://bucket1"
    roles := ⟨false, false, false, false⟩
    authorization := some ⟨⟨true, false, false, false⟩⟩ }

def cfgNoRoles : HubNodeConfig := ⟨some [cmNoRoles]⟩

/- ======= Subfeed store (LocalSubfeedSignedMessagesManager) ============== -/

/-- Body of a signed subfeed message.  Signatures are modelled as strings
(the runtime type is 128-character hex). -/
structure SubfeedMessageBody where
  message : String
  messageNumber : Nat
  previousSignature : Option String
  timestamp : Nat
deriving DecidableEq

structure SignedSubfeedMessage where
  body : SubfeedMessageBody
  signature : String
deriving DecidableEq

/-- The JS coercion (x || null) applied to the previousSignature field in
initializeFromLocal: the empty string is falsy and is coerced to null.
Valid signatures are non-empty hex strings, so on validated data this is
the identity. -/
def jsOrNull : Option String → Option String
  | some s => if s = "" then none else some s
  | none => none

/-- The verification loop of initializeFromLocal: track previousSignature
(starting at null) and previousMessageNumber (starting at -1); for each
message, verify the signature over the body under the feed public key, then
require previousSignature to equal the message's previousSignature (after
the || null coercion), then require the message number to be the successor
of the previous one; any failure throws. -/
def verifyChainLoop (verify : SubfeedMessageBody → String → String → Bool)
    (pk : String) :
    Option String → Int → List SignedSubfeedMessage → Except String Unit
  | _, _, [] => .ok ()
  | prevSig, prevNum, m :: rest =>
    if verify m.body pk m.signature = false then
      .error "Unable to verify signature of message in feed"
    else if prevSig ≠ jsOrNull m.body.previousSignature then
      .error "Inconsistent previousSignature of message in feed"
    else if prevNum + 1 ≠ (m.body.messageNumber : Int) then
      .error "Incorrect message number for message in feed"
    else verifyChainLoop verify pk (some m.signature) (m.body.messageNumber : Int) rest

/-- Translation of initializeFromLocal: verify the chain of the messages read
from the backing log; on success store them as the in-memory list, on
failure leave the state unchanged (the manager stays uninitialized). -/
def initializeFromLocal (verify : SubfeedMessageBody → String → String → Bool)
    (pk : String) (st : Option (List SignedSubfeedMessage))
    (messages : List SignedSubfeedMessage) :
    Option (List SignedSubfeedMessage) × Except String Unit :=
  match verifyChainLoop verify pk none (-1) messages with
  | .ok () => (some messages, .ok ())
  | .error e => (st, .error e)

/-- The chain invariants claimed for a successfully loaded subfeed:
message numbers equal positions, the first previousSignature is null, each
later previousSignature is the previous message's signature, and every
signature verifies over its body under the feed public key. -/
def chainOk (verify : SubfeedMessageBody → String → String → Bool) (pk : String)
    (msgs : List SignedSubfeedMessage) : Prop :=
  (∀ i (h : i < msgs.length), (msgs.get ⟨i, h⟩).body.messageNumber = i) ∧
  (∀ h : 0 < msgs.length, (msgs.get ⟨0, h⟩).body.previousSignature = none) ∧
  (∀ i (h : i + 1 < msgs.length),
    (msgs.get ⟨i + 1, h⟩).body.previousSignature =
      some ((msgs.get ⟨i, Nat.lt_of_succ_lt h⟩).signature)) ∧
  (∀ m ∈ msgs, verify m.body pk m.signature = true)

/-- One step of the in-memory splice loop of addSignedMessages: a message is
appended exactly when its messageNumber equals the current length of the
in-memory list; all other messages are dropped quietly. -/
def spliceStep (cur : List SignedSubfeedMessage) (sm : SignedSubfeedMessage) :
    List SignedSubfeedMessage :=
  if sm.body.messageNumber = cur.length then cur ++ [sm] else cur

def splice (cur toAdd : List SignedSubfeedMessage) : List SignedSubfeedMessage :=
  toAdd.foldl spliceStep cur

/-- Translation of addSignedMessages: check the precondition on the first
incoming message number (0 when the list is empty, otherwise at most the
last existing message number plus one), persist through the local feed
manager (not modelled: it stores the same batch), then splice into memory. -/
def addSignedMessages (cur toAdd : List SignedSubfeedMessage) :
    Except String (List SignedSubfeedMessage) :=
  match toAdd.head?.map (fun sm => sm.body.messageNumber) with
  | none => .ok (splice cur toAdd)
  | some firstNum =>
    match cur.getLast?.map (fun sm => sm.body.messageNumber) with
    | none =>
      if firstNum ≠ 0 then
        .error "Unexpected in appendSignedMessages: first message number to append does not equal zero"
      else .ok (splice cur toAdd)
    | some lastNum =>
      if firstNum > lastNum + 1 then
        .error "Unexpected in appendSignedMessages: unexpected first message number for appending"
      else .ok (splice cur toAdd)

/-- Conditions established by the verification loop of initializeFromLocal,
generalized over the seed previousSignature ps and previous message number
pn carried by the loop. -/
def chainCond (verify : SubfeedMessageBody → String → String → Bool) (pk : String)
    (ps : Option String) (pn : Int) (l : List SignedSubfeedMessage) : Prop :=
  (∀ i (h : i < l.length), ((l.get ⟨i, h⟩).body.messageNumber : Int) = pn + 1 + i) ∧
  (∀ h : 0 < l.length, (l.get ⟨0, h⟩).body.previousSignature = ps) ∧
  (∀ i (h : i + 1 < l.length),
    (l.get ⟨i + 1, h⟩).body.previousSignature =
      some ((l.get ⟨i, Nat.lt_of_succ_lt h⟩).signature)) ∧
  (∀ m ∈ l, verify m.body pk m.signature = true)

/-- The precondition checked by addSignedMessages, as a proposition: when
the batch is nonempty, its first message number must be 0 for an empty list
and at most the last existing message number plus one otherwise. -/
def appendPrecond (cur toAdd : List SignedSubfeedMessage) : Prop :=
  match toAdd with
  | [] => True
  | m :: _ =>
    match cur.getLast? with
    | none => m.body.messageNumber = 0
    | some last => m.body.messageNumber ≤ last.body.messageNumber + 1

/-- A batch whose message numbers are consecutive starting at n: the shape
of every batch produced by the chain verification and replication paths. -/
def consecFrom (n : Nat) : List SignedSubfeedMessage → Bool
  | [] => true
  | m :: rest => (m.body.messageNumber == n) && consecFrom (n + 1) rest

/-- Concrete signed messages for the C8 counterexample; signatures are
arbitrary because addSignedMessages does not verify. -/
def sm0 : SignedSubfeedMessage := ⟨⟨"a", 0, none, 0⟩, "s0"⟩

def sm1 : SignedSubfeedMessage := ⟨⟨"b", 1, some "s0", 1⟩, "s1"⟩

def sm2 : SignedSubfeedMessage := ⟨⟨"c", 2, some "s1", 2⟩, "s2"⟩

def sm3 : SignedSubfeedMessage := ⟨⟨"d", 3, some "s2", 3⟩, "s3"⟩

/-- Verifier that accepts everything, for witnesses. -/
def verifyAll : SubfeedMessageBody → String → String → Bool :=
  fun _ _ _ => true

/-- A well-formed two-message chain for the C1 witness. -/
def chain2 : List SignedSubfeedMessage :=
  [⟨⟨"a", 0, none, 0⟩, "s0"⟩, ⟨⟨"b", 1, some "s0", 1⟩, "s1"⟩]

/- ======= C7: requestFile waiter (requestFileFromChannels) =============== -/

/-- The status variable of the requestFile waiter; empty models the initial
JS value, the empty string. -/
inductive UploadStatus where
  | empty
  | pending
  | started
  | finished
deriving DecidableEq

/-- Translation of the stageFromStatus table. -/
def stageFromStatus : UploadStatus → Nat
  | .empty => 0
  | .pending => 1
  | .started => 2
  | .finished => 3

/-- State of the requestFile waiter: the current status, the timestamp of the
last stage advance (the timer), whether the promise has resolved, and the
resolved value. -/
structure RequestFileWaiter where
  status : UploadStatus
  timer : Nat
  complete : Bool
  result : Option Bool
deriving DecidableEq

/-- Waiter state at promise creation time t0. -/
def initWaiter (t0 : Nat) : RequestFileWaiter :=
  { status := .empty, timer := t0, complete := false, result := none }

/-- Events the waiter reacts to: an incoming pubsub message observed at time
t (isMatch models the check that it is an uploadFileStatus message whose
fileKey matches), and one iteration of the check timer at time t. -/
inductive WaiterEvent where
  | pubsubMessage (isMatch : Bool) (newStatus : UploadStatus) (t : Nat)
  | check (t : Nat)
deriving DecidableEq

def eventTime : WaiterEvent → Nat
  | .pubsubMessage _ _ t => t
  | .check t => t

/-- The per-stage deadline before the waiter gives up: 3000 ms before any
status update, 30000 ms in pending and in started. -/
def stageDeadlineMsec : UploadStatus → Nat
  | .empty => 3000
  | .pending => 30000
  | .started => 30000
  | .finished => 0

def resolveFalse (s : RequestFileWaiter) : RequestFileWaiter :=
  { s with complete := true, result := some false }

/-- Translation of the waiter body of requestFileFromChannels: an incoming
matching uploadFileStatus message advances the status only when the new
stage is strictly greater (resetting the timer to the message time), and
resolves true the moment the status is finished; a check iteration at time t
resolves false when the elapsed time since the last advance exceeds the
deadline of the current stage.  A completed waiter ignores everything. -/
def stepWaiter (s : RequestFileWaiter) (e : WaiterEvent) : RequestFileWaiter :=
  if s.complete then s
  else
    match e with
    | .pubsubMessage isMatch newStatus t =>
      if isMatch then
        let s1 :=
          if stageFromStatus newStatus > stageFromStatus s.status then
            { s with status := newStatus, timer := t }
          else s
        if s1.status = .finished then
          { s1 with complete := true, result := some true }
        else s1
      else s
    | .check t =>
      if s.status = .empty ∧ t - s.timer > 3000 then resolveFalse s
      else if s.status = .pending ∧ t - s.timer > 30000 then resolveFalse s
      else if s.status = .started ∧ t - s.timer > 30000 then resolveFalse s
      else s

def runWaiter (s : RequestFileWaiter) (evs : List WaiterEvent) : RequestFileWaiter :=
  evs.foldl stepWaiter s

/-- Invariant tying the resolved value of the waiter to its status: the
promise has resolved true exactly when the status is finished, and the
complete flag tracks whether a result was produced. -/
def WaiterInv (s : RequestFileWaiter) : Prop :=
  (s.result = some true ↔ s.status = .finished) ∧
  (s.complete = true ↔ s.result.isSome = true)

/-- Hash function used in concrete counterexamples and witnesses: one x per
input byte. -/
def hashArb : List Nat → String :=
  fun l => String.mk (l.map (fun _ => 'x'))

/-- Chunk store used in the C4 counterexample: a single chunk c0. -/
def storeC4 : String → Option (List Nat) :=
  fun c => if c = "c0" then some [1, 2, 3] else none

/- ======================= Theorems ======================================= -/

/-- Claim C6: the bucket object path computed for a subfeed is claimed to be
the hex fan-out feeds/aa/bb/cc/feedId/subfeeds/aa/bb/cc/subfeedHash.  The
source template literal lacks the interpolation markers, so getSubfeedPath
returns the literal template text for every input: it is constant in both
arguments and differs from the intended fan-out path. -/
theorem C6_getSubfeedPath_constant :
    getSubfeedPath feedId0 subfeedHash0 =
      getSubfeedPath "ffff" "0000" ∧
    getSubfeedPath feedId0 subfeedHash0 ≠ getSubfeedPathIntended feedId0 subfeedHash0 := by
  exact ⟨rfl, by decide⟩

/-- Claim C3: when the downloaded bytes hash to a value different from the
expected sha1, the end handler of storeFileFromBucketUrl reports a fatal
error, deletes the temp file, installs nothing, does not end the stream and
does not fan out onFileStored. -/
theorem C3_bucket_mismatch_aborts (computed expected : String)
    (destExists renameOk : Bool) (h : computed ≠ expected) :
    storeFileFromBucketUrlOnEnd computed expected destExists renameOk =
      ⟨true, false, true, false, false⟩ := by
  simp [storeFileFromBucketUrlOnEnd, h, bucketReportError, bucketCleanup, bucketDlStart]

theorem C3_bucket_mismatch_aborts_witness :
    "aa" ≠ "bb" ∧
    storeFileFromBucketUrlOnEnd "aa" "bb" true true = ⟨true, false, true, false, false⟩ :=
  ⟨by decide, C3_bucket_mismatch_aborts "aa" "bb" true true (by decide)⟩

/-- Claim C4, counterexample: the claim states that on a SHA-1 mismatch the
temporary file is deleted.  At this concrete input the computed hash differs
from the expected one, the call aborts with the mismatch error, yet the temp
file that was created is NOT deleted (the source rejects the promise without
unlinking the temp path). -/
theorem C4_counterexample :
    (concatenateChunksAndStoreResult hashArb storeC4 "expected" ["c0"] false false true).result
      = .errSha1Mismatch ∧
    (concatenateChunksAndStoreResult hashArb storeC4 "expected" ["c0"] false false true).tempCreated
      = true ∧
    (concatenateChunksAndStoreResult hashArb storeC4 "expected" ["c0"] false false true).tempDeleted
      = false := by
  decide

/-- Claim C4, amended: for every call of concatenateChunksAndStoreResult whose
concatenated bytes hash to a value different from the expected sha1 (all
chunks present, destination not yet installed), the operation aborts with a
fatal error and no file is installed at the content path and onFileStored is
not emitted; the temporary file, however, is left behind (not deleted). -/
theorem C4_concat_mismatch_aborts (hash : List Nat → String)
    (store : String → Option (List Nat)) (sha1 : String) (chunkSha1s : List String)
    (destExistsAtEnd renameOk : Bool)
    (hpresent : ∀ c ∈ chunkSha1s, (store c).isSome = true)
    (hmismatch : hash ((chunkSha1s.map (fun c => (store c).getD [])).flatten) ≠ sha1) :
    concatenateChunksAndStoreResult hash store sha1 chunkSha1s false destExistsAtEnd renameOk =
      ⟨.errSha1Mismatch, true, false, false, false⟩ := by
  have hany : chunkSha1s.any (fun c => (store c).isNone) = false := by
    simp only [List.any_eq_false]
    intro c hc
    have := hpresent c hc
    simp [Option.isNone, Option.isSome] at this ⊢
    cases hsc : store c with
    | none => rw [hsc] at this; simp at this
    | some v => simp
  simp [concatenateChunksAndStoreResult, hany, hmismatch]

theorem C4_concat_mismatch_aborts_witness :
    (∀ c ∈ ["c0"], (storeC4 c).isSome = true) ∧
    concatenateChunksAndStoreResult hashArb storeC4 "expected" ["c0"] false false true =
      ⟨.errSha1Mismatch, true, false, false, false⟩ :=
  ⟨by decide, C4_concat_mismatch_aborts hashArb storeC4 "expected" ["c0"] false true
    (by decide) (by decide)⟩

/-- Claim C5, counterexample: the claim states that a channel operation is
performed only when both the role and the matching permission are set.  In
this concrete configuration every role is false, yet requestFileFromChannels
publishes the requestFile message (only the permission is consulted), and an
incoming requestFile message is dispatched to the onIncomingFileRequest
callbacks even though both roles.provideFiles and permissions.provideFiles
are false (only membership and bucket URI are consulted). -/
theorem C5_counterexample :
    cmNoRoles.roles.requestFiles = false ∧
    requestFilePublishTargets cfgNoRoles = [("ch1", "ch1-requestFiles")] ∧
    cmNoRoles.roles.provideFiles = false ∧
    (cmNoRoles.authorization.map (fun au => au.permissions.provideFiles)) = some false ∧
    handleRequestFileDispatches cfgNoRoles "ch1" "ch1-requestFiles" = true := by
  decide

/-- Claim C5, amended: requestFileFromChannels publishes the requestFile
message to channelName-requestFiles exactly when the membership carries an
authorization whose permissions.requestFiles is set (the role is not
consulted); an incoming requestFile message is dispatched to the
onIncomingFileRequest callbacks exactly when the pubsub sub-channel is
channelName-requestFiles, the node has a membership for the channel, and
that membership has a bucket URI (neither roles.provideFiles nor
permissions.provideFiles is consulted). -/
theorem C5_requestFile_gating (cfg : HubNodeConfig) (cm : HubChannelMembership)
    (ch psch : String) :
    (publishesRequestFile cm = true ↔
      ∃ au, cm.authorization = some au ∧ au.permissions.requestFiles = true) ∧
    (handleRequestFileDispatches cfg ch psch = true ↔
      (psch = ch ++ "-requestFiles" ∧
       ∃ cm2, getChannelMembershipM cfg ch = some cm2 ∧ cm2.channelBucketUri.isSome = true)) := by
  constructor
  · cases h : cm.authorization with
    | none => simp [publishesRequestFile, h]
    | some au => simp [publishesRequestFile, h]
  · by_cases hp : psch = ch ++ "-requestFiles"
    · cases h2 : getChannelMembershipM cfg ch with
      | none => simp [handleRequestFileDispatches, hp, h2]
      | some cm2 => simp [handleRequestFileDispatches, hp, h2]
    · simp [handleRequestFileDispatches, hp]

theorem C5_requestFile_gating_witness :
    (publishesRequestFile cmNoRoles = true ↔
      ∃ au, cmNoRoles.authorization = some au ∧ au.permissions.requestFiles = true) ∧
    (handleRequestFileDispatches cfgNoRoles "ch1" "ch1-requestFiles" = true ↔
      ("ch1-requestFiles" = "ch1" ++ "-requestFiles" ∧
       ∃ cm2, getChannelMembershipM cfgNoRoles "ch1" = some cm2 ∧
         cm2.channelBucketUri.isSome = true)) :=
  C5_requestFile_gating cfgNoRoles cmNoRoles "ch1" "ch1-requestFiles"

/-- Claim C9, counterexample: the claim states that a link whose referenced
file stats with a size different from the recorded one is treated as invalid
(found = false).  In this concrete filesystem view the link records size 10,
the external file currently stats with size 20, and findFile nevertheless
reports found = true: the source never compares the two sizes. -/
theorem C9_counterexample :
    linkFsMismatch.linkFile =
      some (some ⟨"/ext/data", none, 10, 0⟩) ∧
    lookupStat linkFsMismatch.externalStat "/ext/data" = some 20 ∧
    (20 : Nat) ≠ 10 ∧
    (findFileLinked linkFsMismatch).1 = true := by
  decide

/-- Claim C9, amended: for a sha1 resolvable only through a link file,
findFile reports found = true exactly when the link file parses as a link
object and the referenced external path still stats (or the direct file
exists); the size recorded in the link object is not compared against the
current stat. -/
theorem C9_link_resolution (fs : LinkFsView) :
    (findFileLinked fs).1 = true ↔
      (fs.directSize.isSome = true ∨
       ∃ x, fs.linkFile = some (some x) ∧ (lookupStat fs.externalStat x.path).isSome = true) := by
  unfold findFileLinked getLocalFileInfo2
  cases hd : fs.directSize with
  | some sz => simp
  | none =>
    cases hl : fs.linkFile with
    | none => simp
    | some o =>
      cases o with
      | none => simp
      | some x =>
        cases hs : lookupStat fs.externalStat x.path with
        | none => simp [hs]
        | some sz => simp [hs]

theorem C9_link_resolution_witness :
    (findFileLinked linkFsMismatch).1 = true ↔
      (linkFsMismatch.directSize.isSome = true ∨
       ∃ x, linkFsMismatch.linkFile = some (some x) ∧
         (lookupStat linkFsMismatch.externalStat x.path).isSome = true) :=
  C9_link_resolution linkFsMismatch

/-- Claim C10: storeFile performs no hash verification of its input: for any
sha1 and data whose hash differs from sha1 (destination not yet present),
the call succeeds, installs the data at the content path derived from sha1,
emits onFileStored sha1, and a subsequent findFile for that sha1 reports
found = true although the stored content does not hash to sha1. -/
theorem C10_storeFile_no_verification (h : List Nat → String) (dir sha1 : String)
    (data : List Nat) (fs : FsMap)
    (hhash : h data ≠ sha1)
    (hfresh : fsHas fs (fanoutContentPath dir sha1) = false) :
    (storeFile dir sha1 data fs).2 = [sha1] ∧
    fsGet (storeFile dir sha1 data fs).1 (fanoutContentPath dir sha1) = some data ∧
    (findFileDirect dir sha1 (storeFile dir sha1 data fs).1).1 = true ∧
    h data ≠ sha1 := by
  have hfind : fsGet ((fanoutContentPath dir sha1, data) :: fs) (fanoutContentPath dir sha1)
      = some data := by
    simp [fsGet, List.find?]
  refine ⟨?_, ?_, ?_, hhash⟩
  · simp [storeFile, hfresh]
  · simp [storeFile, hfresh, hfind]
  · simp [findFileDirect, storeFile, hfresh, hfind]

theorem C10_storeFile_no_verification_witness :
    hashArb [1, 2] ≠ "aabbccdd" ∧
    (storeFile "root" "aabbccdd" [1, 2] []).2 = ["aabbccdd"] ∧
    fsGet (storeFile "root" "aabbccdd" [1, 2] []).1 (fanoutContentPath "root" "aabbccdd") =
      some [1, 2] ∧
    (findFileDirect "root" "aabbccdd" (storeFile "root" "aabbccdd" [1, 2] []).1).1 = true :=
  ⟨by decide,
   (C10_storeFile_no_verification hashArb "root" "aabbccdd" [1, 2] [] (by decide) (by decide)).1,
   (C10_storeFile_no_verification hashArb "root" "aabbccdd" [1, 2] [] (by decide) (by decide)).2.1,
   (C10_storeFile_no_verification hashArb "root" "aabbccdd" [1, 2] [] (by decide) (by decide)).2.2.1⟩

/- ---- C1 helper lemmas ---- -/

theorem jsOrNull_eq_self (x : Option String) (hx : x ≠ some "") : jsOrNull x = x := by
  cases x with
  | none => rfl
  | some s =>
    unfold jsOrNull
    have hs : s ≠ "" := fun h => hx (by rw [h])
    simp [hs]

theorem chainCond_cons (verify : SubfeedMessageBody → String → String → Bool)
    (pk : String) (ps : Option String) (pn : Int) (m : SignedSubfeedMessage)
    (rest : List SignedSubfeedMessage) :
    chainCond verify pk ps pn (m :: rest) ↔
      (verify m.body pk m.signature = true ∧
       m.body.previousSignature = ps ∧
       ((m.body.messageNumber : Int) = pn + 1) ∧
       chainCond verify pk (some m.signature) (m.body.messageNumber : Int) rest) := by
  unfold chainCond
  constructor
  · rintro ⟨hnum, hhead, hchain, hall⟩
    have h0 : ((m.body.messageNumber : Int)) = pn + 1 := by
      have := hnum 0 (by simp)
      simpa using this
    refine ⟨hall m (by simp), by simpa using hhead (by simp), h0, ?_, ?_, ?_, ?_⟩
    · intro i h
      have hi : i + 1 < (m :: rest).length := by simp only [List.length_cons]; omega
      have h2 : ((rest.get ⟨i, h⟩).body.messageNumber : Int) = pn + 1 + ((i : Int) + 1) := by
        have h3 := hnum (i + 1) hi
        rw [List.get_cons_succ] at h3
        exact h3.trans (by push_cast; ring)
      omega
    · intro h0r
      have h1 : 0 + 1 < (m :: rest).length := by simp only [List.length_cons]; omega
      have h2 := hchain 0 h1
      simp only [List.get_cons_succ, List.get_cons_zero] at h2
      exact h2
    · intro i h
      have h2c : (i + 1) + 1 < (m :: rest).length := by simp only [List.length_cons]; omega
      have h2 := hchain (i + 1) h2c
      simp only [List.get_cons_succ] at h2
      exact h2
    · intro x hx
      exact hall x (List.mem_cons_of_mem m hx)
  · rintro ⟨hv, hps, hn, hnum, hhead, hchain, hall⟩
    refine ⟨?_, ?_, ?_, ?_⟩
    · intro i h
      cases i with
      | zero => simpa using hn
      | succ j =>
        have hj : j < rest.length := by simp only [List.length_cons] at h; omega
        rw [List.get_cons_succ]
        have h2 := hnum j hj
        refine h2.trans ?_
        rw [hn]
        push_cast
        ring
    · intro h0
      simpa using hps
    · intro i h
      cases i with
      | zero =>
        simp only [List.get_cons_succ, List.get_cons_zero]
        have h0r : 0 < rest.length := by simp only [List.length_cons] at h; omega
        exact hhead h0r
      | succ j =>
        simp only [List.get_cons_succ]
        have hj : j + 1 < rest.length := by simp only [List.length_cons] at h; omega
        exact hchain j hj
    · intro x hx
      rcases List.mem_cons.mp hx with h | h
      · rw [h]; exact hv
      · exact hall x h

theorem verifyChainLoop_ok_iff (verify : SubfeedMessageBody → String → String → Bool)
    (pk : String) (l : List SignedSubfeedMessage) :
    ∀ (ps : Option String) (pn : Int),
      (∀ m ∈ l, m.body.previousSignature ≠ some "") →
      (verifyChainLoop verify pk ps pn l = .ok () ↔ chainCond verify pk ps pn l) := by
  induction l with
  | nil =>
    intro ps pn _
    constructor
    · intro _
      refine ⟨?_, ?_, ?_, ?_⟩ <;> simp
    · intro _
      rfl
  | cons m rest ih =>
    intro ps pn hwf
    have hwfm : m.body.previousSignature ≠ some "" := hwf m (by simp)
    have hwfr : ∀ x ∈ rest, x.body.previousSignature ≠ some "" :=
      fun x hx => hwf x (List.mem_cons_of_mem m hx)
    rw [chainCond_cons]
    simp only [verifyChainLoop]
    rw [jsOrNull_eq_self _ hwfm]
    split_ifs with hv hps hpn
    · constructor
      · intro hcon
        exact absurd hcon (by simp)
      · rintro ⟨hv2, -, -, -⟩
        rw [hv2] at hv
        exact absurd hv (by simp)
    · constructor
      · intro hcon
        exact absurd hcon (by simp)
      · rintro ⟨-, hps2, -, -⟩
        exact hps hps2.symm
    · constructor
      · intro hcon
        exact absurd hcon (by simp)
      · rintro ⟨-, -, hn, -⟩
        exact hpn hn.symm
    · rw [ih (some m.signature) (m.body.messageNumber : Int) hwfr]
      have hv2 : verify m.body pk m.signature = true := by
        cases hvv : verify m.body pk m.signature with
        | false => exact absurd hvv hv
        | true => rfl
      push_neg at hps hpn
      constructor
      · intro hrest
        exact ⟨hv2, hps.symm, hpn.symm, hrest⟩
      · rintro ⟨-, -, -, hrest⟩
        exact hrest

/-- Claim C1: for every subfeed whose initializeFromLocal completes
successfully the loaded message list satisfies messageNumber i at position
i, a null previousSignature at position 0, the previous message's signature
at every later position, and signature verification under the feed public
key; and for any message list violating one of these conditions the load
aborts with an error and leaves the manager state unchanged (uninitialized
when it was).  The hypothesis states that previousSignature fields are
never the empty string, which holds of every runtime-validated Signature
(a 128-character hex string); it discharges the JS (x || null) coercion. -/
theorem C1_initializeFromLocal_chain (verify : SubfeedMessageBody → String → String → Bool)
    (pk : String) (st : Option (List SignedSubfeedMessage))
    (msgs : List SignedSubfeedMessage)
    (hwf : ∀ m ∈ msgs, m.body.previousSignature ≠ some "") :
    ((initializeFromLocal verify pk st msgs).2 = .ok () ↔ chainOk verify pk msgs) ∧
    ((initializeFromLocal verify pk st msgs).2 = .ok () →
      (initializeFromLocal verify pk st msgs).1 = some msgs) ∧
    ((initializeFromLocal verify pk st msgs).2 ≠ .ok () →
      (initializeFromLocal verify pk st msgs).1 = st) := by
  have hloop := verifyChainLoop_ok_iff verify pk msgs none (-1) hwf
  have hcond : chainCond verify pk none (-1) msgs ↔ chainOk verify pk msgs := by
    unfold chainCond chainOk
    constructor
    · rintro ⟨hnum, hhead, hchain, hall⟩
      refine ⟨fun i h => ?_, hhead, hchain, hall⟩
      have := hnum i h
      omega
    · rintro ⟨hnum, hhead, hchain, hall⟩
      refine ⟨fun i h => ?_, hhead, hchain, hall⟩
      have := hnum i h
      omega
  cases hres : verifyChainLoop verify pk none (-1) msgs with
  | ok u =>
    cases u
    have hc : chainOk verify pk msgs := hcond.mp (hloop.mp hres)
    refine ⟨?_, ?_, ?_⟩ <;> simp [initializeFromLocal, hres, hc]
  | error e =>
    have hnc : ¬ chainOk verify pk msgs := by
      intro hcok
      have h2 := hloop.mpr (hcond.mpr hcok)
      rw [hres] at h2
      exact absurd h2 (by simp)
    refine ⟨?_, ?_, ?_⟩ <;> simp [initializeFromLocal, hres, hnc]

theorem C1_initializeFromLocal_chain_witness :
    (∀ m ∈ chain2, m.body.previousSignature ≠ some "") ∧
    (((initializeFromLocal verifyAll "pk" none chain2).2 = .ok () ↔
        chainOk verifyAll "pk" chain2) ∧
     ((initializeFromLocal verifyAll "pk" none chain2).2 = .ok () →
        (initializeFromLocal verifyAll "pk" none chain2).1 = some chain2) ∧
     ((initializeFromLocal verifyAll "pk" none chain2).2 ≠ .ok () →
        (initializeFromLocal verifyAll "pk" none chain2).1 = none)) :=
  ⟨by decide, C1_initializeFromLocal_chain verifyAll "pk" none chain2 (by decide)⟩

/- ---- C8 helper lemmas ---- -/

theorem splice_cons (cur : List SignedSubfeedMessage) (m : SignedSubfeedMessage)
    (rest : List SignedSubfeedMessage) :
    splice cur (m :: rest) = splice (spliceStep cur m) rest := rfl

theorem spliceStep_length_le (cur : List SignedSubfeedMessage)
    (sm : SignedSubfeedMessage) : cur.length ≤ (spliceStep cur sm).length := by
  unfold spliceStep
  split_ifs
  · simp
  · exact le_refl _

theorem splice_length_le (toAdd : List SignedSubfeedMessage) :
    ∀ cur : List SignedSubfeedMessage, cur.length ≤ (splice cur toAdd).length := by
  induction toAdd with
  | nil => intro cur; exact le_refl _
  | cons m rest ih =>
    intro cur
    rw [splice_cons]
    exact le_trans (spliceStep_length_le cur m) (ih (spliceStep cur m))

theorem consecFrom_cons (n : Nat) (m : SignedSubfeedMessage)
    (rest : List SignedSubfeedMessage) :
    consecFrom n (m :: rest) = true ↔
      (m.body.messageNumber = n ∧ consecFrom (n + 1) rest = true) := by
  simp only [consecFrom, Bool.and_eq_true, beq_iff_eq]

theorem splice_of_lt (toAdd : List SignedSubfeedMessage) :
    ∀ (cur : List SignedSubfeedMessage) (n0 : Nat),
      consecFrom n0 toAdd = true → cur.length < n0 → splice cur toAdd = cur := by
  induction toAdd with
  | nil => intro cur n0 _ _; rfl
  | cons m rest ih =>
    intro cur n0 hc hlt
    rcases (consecFrom_cons n0 m rest).mp hc with ⟨hm, hcr⟩
    have hstep : spliceStep cur m = cur := by
      unfold spliceStep
      have hne : ¬ m.body.messageNumber = cur.length := by omega
      simp [hne]
    rw [splice_cons, hstep]
    exact ih cur (n0 + 1) hcr (by omega)

theorem splice_of_ge (toAdd : List SignedSubfeedMessage) :
    ∀ (cur : List SignedSubfeedMessage) (n0 : Nat),
      consecFrom n0 toAdd = true → n0 + toAdd.length ≤ cur.length →
      splice cur toAdd = cur := by
  induction toAdd with
  | nil => intro cur n0 _ _; rfl
  | cons m rest ih =>
    intro cur n0 hc hge
    rcases (consecFrom_cons n0 m rest).mp hc with ⟨hm, hcr⟩
    simp only [List.length_cons] at hge
    have hstep : spliceStep cur m = cur := by
      unfold spliceStep
      have hne : ¬ m.body.messageNumber = cur.length := by omega
      simp [hne]
    rw [splice_cons, hstep]
    exact ih cur (n0 + 1) hcr (by omega)

theorem splice_length_overlap (toAdd : List SignedSubfeedMessage) :
    ∀ (cur : List SignedSubfeedMessage) (n0 : Nat),
      consecFrom n0 toAdd = true → n0 ≤ cur.length →
      cur.length ≤ n0 + toAdd.length →
      (splice cur toAdd).length = n0 + toAdd.length := by
  induction toAdd with
  | nil =>
    intro cur n0 _ h1 h2
    simp only [List.length_nil] at h2
    show cur.length = n0 + ([] : List SignedSubfeedMessage).length
    simp only [List.length_nil]
    omega
  | cons m rest ih =>
    intro cur n0 hc h1 h2
    rcases (consecFrom_cons n0 m rest).mp hc with ⟨hm, hcr⟩
    simp only [List.length_cons] at h2 ⊢
    rw [splice_cons]
    by_cases he : cur.length = n0
    · have hstep : spliceStep cur m = cur ++ [m] := by
        unfold spliceStep
        have heq : m.body.messageNumber = cur.length := by omega
        simp [heq]
      rw [hstep]
      have hr := ih (cur ++ [m]) (n0 + 1) hcr
        (by simp only [List.length_append, List.length_cons, List.length_nil]; omega)
        (by simp only [List.length_append, List.length_cons, List.length_nil]; omega)
      rw [hr]
      omega
    · have hstep : spliceStep cur m = cur := by
        unfold spliceStep
        have hne : ¬ m.body.messageNumber = cur.length := by omega
        simp [hne]
      rw [hstep]
      have hr := ih cur (n0 + 1) hcr (by omega) (by omega)
      rw [hr]
      omega

theorem splice_getLast_overlap (toAdd : List SignedSubfeedMessage) :
    ∀ (cur : List SignedSubfeedMessage) (n0 : Nat),
      consecFrom n0 toAdd = true → n0 ≤ cur.length →
      cur.length < n0 + toAdd.length →
      ∃ sm, (splice cur toAdd).getLast? = some sm ∧
        sm.body.messageNumber = n0 + toAdd.length - 1 := by
  induction toAdd with
  | nil =>
    intro cur n0 _ h1 h2
    simp only [List.length_nil] at h2
    omega
  | cons m rest ih =>
    intro cur n0 hc h1 h2
    rcases (consecFrom_cons n0 m rest).mp hc with ⟨hm, hcr⟩
    simp only [List.length_cons] at h2 ⊢
    rw [splice_cons]
    by_cases he : cur.length = n0
    · have hstep : spliceStep cur m = cur ++ [m] := by
        unfold spliceStep
        have heq : m.body.messageNumber = cur.length := by omega
        simp [heq]
      rw [hstep]
      by_cases hre : rest = []
      · subst hre
        refine ⟨m, ?_, ?_⟩
        · show (cur ++ [m]).getLast? = some m
          exact List.getLast?_concat cur
        · simp only [List.length_nil]
          omega
      · have hlen : 0 < rest.length := List.length_pos.mpr hre
        rcases ih (cur ++ [m]) (n0 + 1) hcr
          (by simp only [List.length_append, List.length_cons, List.length_nil]; omega)
          (by simp only [List.length_append, List.length_cons, List.length_nil]; omega)
          with ⟨sm, hsm, hnum⟩
        exact ⟨sm, hsm, by omega⟩
    · have hstep : spliceStep cur m = cur := by
        unfold spliceStep
        have hne : ¬ m.body.messageNumber = cur.length := by omega
        simp [hne]
      rw [hstep]
      rcases ih cur (n0 + 1) hcr (by omega) (by omega) with ⟨sm, hsm, hnum⟩
      exact ⟨sm, hsm, by omega⟩

theorem splice_idem (toAdd cur : List SignedSubfeedMessage) (n0 : Nat)
    (hc : consecFrom n0 toAdd = true) :
    splice (splice cur toAdd) toAdd = splice cur toAdd := by
  rcases Nat.lt_or_ge cur.length n0 with hlt | hge1
  · have h1 := splice_of_lt toAdd cur n0 hc hlt
    rw [h1]
    exact h1
  · rcases Nat.lt_or_ge cur.length (n0 + toAdd.length) with hlt2 | hge2
    · have hL := splice_length_overlap toAdd cur n0 hc hge1 (by omega)
      exact splice_of_ge toAdd (splice cur toAdd) n0 hc (by omega)
    · have h1 := splice_of_ge toAdd cur n0 hc hge2
      rw [h1]
      exact h1

theorem addSignedMessages_ok_iff (cur toAdd l1 : List SignedSubfeedMessage) :
    addSignedMessages cur toAdd = .ok l1 ↔
      (l1 = splice cur toAdd ∧ appendPrecond cur toAdd) := by
  cases toAdd with
  | nil =>
    simp [addSignedMessages, appendPrecond, eq_comm]
  | cons m rest =>
    cases hL : cur.getLast? with
    | none =>
      by_cases h0 : m.body.messageNumber = 0
      · simp [addSignedMessages, appendPrecond, hL, h0, eq_comm]
      · simp [addSignedMessages, appendPrecond, hL, h0]
    | some last =>
      by_cases hb : m.body.messageNumber > last.body.messageNumber + 1
      · have hnle : ¬ m.body.messageNumber ≤ last.body.messageNumber + 1 := by omega
        simp [addSignedMessages, appendPrecond, hL, hb, hnle]
      · have hle : m.body.messageNumber ≤ last.body.messageNumber + 1 := by omega
        simp [addSignedMessages, appendPrecond, hL, hb, hle, eq_comm]

/-- Claim C8, amended: addSignedMessages is idempotent over duplicates for
batches whose message numbers are consecutive (as every replayed chain
fragment is): if a call with such a batch succeeds with result l1, calling
again with the identical batch succeeds and leaves l1 unchanged.  Within the
splice loop, a message whose messageNumber is below (indeed, different from)
the current length is dropped quietly, and a message is appended exactly
when its messageNumber equals the current length. -/
theorem C8_addSignedMessages_idempotent (cur toAdd l1 : List SignedSubfeedMessage)
    (n0 : Nat) (hc : consecFrom n0 toAdd = true)
    (hok : addSignedMessages cur toAdd = .ok l1) :
    addSignedMessages l1 toAdd = .ok l1 ∧
    (∀ (cur2 : List SignedSubfeedMessage) (sm : SignedSubfeedMessage),
      sm.body.messageNumber < cur2.length → spliceStep cur2 sm = cur2) ∧
    (∀ (cur2 : List SignedSubfeedMessage) (sm : SignedSubfeedMessage),
      spliceStep cur2 sm ≠ cur2 →
        sm.body.messageNumber = cur2.length ∧ spliceStep cur2 sm = cur2 ++ [sm]) := by
  rcases (addSignedMessages_ok_iff cur toAdd l1).mp hok with ⟨hl1, hpre⟩
  refine ⟨?_, ?_, ?_⟩
  · refine (addSignedMessages_ok_iff l1 toAdd l1).mpr ⟨?_, ?_⟩
    · rw [hl1]
      exact (splice_idem toAdd cur n0 hc).symm
    · cases toAdd with
      | nil => trivial
      | cons m rest =>
        rcases (consecFrom_cons n0 m rest).mp hc with ⟨hm, hcr⟩
        cases hL1 : l1.getLast? with
        | none =>
          have hl1nil : l1 = [] := List.getLast?_eq_none_iff.mp hL1
          have hcurnil : cur = [] := by
            have hle := splice_length_le (m :: rest) cur
            rw [← hl1, hl1nil] at hle
            simp only [List.length_nil, Nat.le_zero] at hle
            exact List.length_eq_zero.mp hle
          rw [hcurnil] at hpre
          simp only [appendPrecond, List.getLast?_nil] at hpre
          simp only [appendPrecond, hL1]
          exact hpre
        | some last2 =>
          simp only [appendPrecond, hL1]
          rcases Nat.lt_or_ge cur.length n0 with hlt | hge1
          · have hcureq : l1 = cur := by
              rw [hl1, splice_of_lt (m :: rest) cur n0 hc hlt]
            have hLcur : cur.getLast? = some last2 := by
              rw [← hcureq]
              exact hL1
            simp only [appendPrecond, hLcur] at hpre
            exact hpre
          · rcases Nat.lt_or_ge cur.length (n0 + (m :: rest).length) with hlt2 | hge2
            · rcases splice_getLast_overlap (m :: rest) cur n0 hc hge1 hlt2
                with ⟨sm, hsm, hsnum⟩
              rw [← hl1] at hsm
              have hlast : last2 = sm := by
                have h2 := hL1.symm.trans hsm
                injection h2
              rw [hlast]
              simp only [List.length_cons] at hsnum
              omega
            · have hcureq : l1 = cur := by
                rw [hl1, splice_of_ge (m :: rest) cur n0 hc hge2]
              have hLcur : cur.getLast? = some last2 := by
                rw [← hcureq]
                exact hL1
              simp only [appendPrecond, hLcur] at hpre
              exact hpre
  · intro cur2 sm h
    unfold spliceStep
    have hne : ¬ sm.body.messageNumber = cur2.length := by omega
    simp [hne]
  · intro cur2 sm h
    by_cases hcase : sm.body.messageNumber = cur2.length
    · exact ⟨hcase, by simp [spliceStep, hcase]⟩
    · exact absurd (by simp [spliceStep, hcase]) h

theorem C8_addSignedMessages_idempotent_witness :
    consecFrom 1 [sm1, sm2] = true ∧
    (addSignedMessages [sm0] [sm1, sm2] = .ok [sm0, sm1, sm2]) ∧
    (addSignedMessages [sm0, sm1, sm2] [sm1, sm2] = .ok [sm0, sm1, sm2] ∧
     (∀ (cur2 : List SignedSubfeedMessage) (sm : SignedSubfeedMessage),
       sm.body.messageNumber < cur2.length → spliceStep cur2 sm = cur2) ∧
     (∀ (cur2 : List SignedSubfeedMessage) (sm : SignedSubfeedMessage),
       spliceStep cur2 sm ≠ cur2 →
         sm.body.messageNumber = cur2.length ∧ spliceStep cur2 sm = cur2 ++ [sm])) :=
  ⟨rfl, rfl, C8_addSignedMessages_idempotent [sm0] [sm1, sm2] [sm0, sm1, sm2] 1 rfl rfl⟩

/-- Claim C8, counterexample: the claim as stated quantifies over every batch
satisfying the append precondition.  The batch sm1, sm3, sm2 satisfies the
precondition against the state sm0 (first incoming number 1 is at most
lastExisting + 1 = 1), yet calling addSignedMessages twice with it appends
sm3 on the second call: the in-memory list after the replay differs from the
result of the single call, so the operation is not idempotent for it. -/
theorem C8_counterexample :
    addSignedMessages [sm0] [sm1, sm3, sm2] = .ok [sm0, sm1, sm2] ∧
    addSignedMessages [sm0, sm1, sm2] [sm1, sm3, sm2] = .ok [sm0, sm1, sm2, sm3] ∧
    ([sm0, sm1, sm2, sm3] : List SignedSubfeedMessage) ≠ [sm0, sm1, sm2] := by
  exact ⟨rfl, rfl, by decide⟩

/- ---- C7 helper lemmas ---- -/

theorem stepWaiter_complete (s : RequestFileWaiter) (e : WaiterEvent)
    (hcomp : s.complete = true) : stepWaiter s e = s := by
  simp [stepWaiter, hcomp]

theorem stepWaiter_pubsub_eq (s : RequestFileWaiter) (isMatch : Bool)
    (ns : UploadStatus) (t : Nat) (hcomp : s.complete = false)
    (him : isMatch = true) :
    stepWaiter s (.pubsubMessage isMatch ns t) =
      if stageFromStatus ns > stageFromStatus s.status then
        (if ns = .finished then
          { s with status := ns, timer := t, complete := true, result := some true }
         else { s with status := ns, timer := t })
      else
        (if s.status = .finished then
          { s with complete := true, result := some true }
         else s) := by
  by_cases hst : stageFromStatus ns > stageFromStatus s.status
  · by_cases hfin : ns = .finished
    · subst hfin
      simp [stepWaiter, hcomp, him, hst]
    · simp [stepWaiter, hcomp, him, hst, hfin]
  · by_cases hsfin : s.status = .finished
    · rw [hsfin] at hst
      simp [stepWaiter, hcomp, him, hst, hsfin]
    · simp [stepWaiter, hcomp, him, hst, hsfin]

theorem stepWaiter_check_eq (s : RequestFileWaiter) (t : Nat)
    (hcomp : s.complete = false) :
    stepWaiter s (.check t) =
      if s.status = .empty ∧ t - s.timer > 3000 then resolveFalse s
      else if s.status = .pending ∧ t - s.timer > 30000 then resolveFalse s
      else if s.status = .started ∧ t - s.timer > 30000 then resolveFalse s
      else s := by
  simp [stepWaiter, hcomp]

theorem waiter_result_none_of_incomplete (s : RequestFileWaiter) (h : WaiterInv s)
    (hcomp : ¬ s.complete = true) : s.result = none := by
  cases hr : s.result with
  | none => rfl
  | some b =>
    exact absurd (h.2.mpr (by simp [hr])) hcomp

theorem waiterInv_init (t0 : Nat) : WaiterInv (initWaiter t0) := by
  constructor <;> simp [initWaiter]

theorem waiterInv_step (s : RequestFileWaiter) (e : WaiterEvent) (h : WaiterInv s) :
    WaiterInv (stepWaiter s e) := by
  obtain ⟨hI1, hI2⟩ := h
  cases hcomp : s.complete with
  | true =>
    rw [stepWaiter_complete s e hcomp]
    exact ⟨hI1, hI2⟩
  | false =>
    have hrn : s.result = none :=
      waiter_result_none_of_incomplete s ⟨hI1, hI2⟩ (by simp [hcomp])
    cases e with
    | pubsubMessage isMatch ns t =>
      cases him : isMatch with
      | false =>
        have hs : stepWaiter s (.pubsubMessage false ns t) = s := by
          simp [stepWaiter, hcomp]
        rw [hs]
        exact ⟨hI1, hI2⟩
      | true =>
        rw [stepWaiter_pubsub_eq s true ns t hcomp rfl]
        split_ifs with hg hf hsf
        · exact ⟨by simp [hf], by simp⟩
        · exact ⟨by simp [hrn, hf], by simp [hcomp, hrn]⟩
        · exact ⟨by simp [hsf], by simp⟩
        · exact ⟨hI1, hI2⟩
    | check t =>
      rw [stepWaiter_check_eq s t hcomp]
      split_ifs with c1 c2 c3
      · exact ⟨by simp [resolveFalse, c1.1], by simp [resolveFalse]⟩
      · exact ⟨by simp [resolveFalse, c2.1], by simp [resolveFalse]⟩
      · exact ⟨by simp [resolveFalse, c3.1], by simp [resolveFalse]⟩
      · exact ⟨hI1, hI2⟩

theorem waiterInv_run (s : RequestFileWaiter) (evs : List WaiterEvent)
    (h : WaiterInv s) : WaiterInv (runWaiter s evs) := by
  induction evs generalizing s with
  | nil => exact h
  | cons e rest ih => exact ih (stepWaiter s e) (waiterInv_step s e h)

theorem waiter_step_stage_le (s : RequestFileWaiter) (e : WaiterEvent) :
    stageFromStatus s.status ≤ stageFromStatus (stepWaiter s e).status := by
  cases hcomp : s.complete with
  | true =>
    rw [stepWaiter_complete s e hcomp]
  | false =>
    cases e with
    | pubsubMessage isMatch ns t =>
      cases him : isMatch with
      | false =>
        have hs : stepWaiter s (.pubsubMessage false ns t) = s := by
          simp [stepWaiter, hcomp]
        rw [hs]
      | true =>
        rw [stepWaiter_pubsub_eq s true ns t hcomp rfl]
        split_ifs with hg hf hsf
        · exact le_of_lt hg
        · exact le_of_lt hg
        · exact le_refl _
        · exact le_refl _
    | check t =>
      rw [stepWaiter_check_eq s t hcomp]
      split_ifs <;> exact le_refl _

theorem waiter_run_stage_le (evs : List WaiterEvent) :
    ∀ s : RequestFileWaiter,
      stageFromStatus s.status ≤ stageFromStatus (runWaiter s evs).status := by
  induction evs with
  | nil => intro s; exact le_refl _
  | cons e rest ih =>
    intro s
    exact le_trans (waiter_step_stage_le s e) (ih (stepWaiter s e))

theorem waiter_step_timer_reset (s : RequestFileWaiter) (e : WaiterEvent)
    (h : (stepWaiter s e).status ≠ s.status) : (stepWaiter s e).timer = eventTime e := by
  cases hcomp : s.complete with
  | true => exact absurd (by rw [stepWaiter_complete s e hcomp]) h
  | false =>
    cases e with
    | pubsubMessage isMatch ns t =>
      cases him : isMatch with
      | false =>
        rw [him] at h
        have hs : stepWaiter s (.pubsubMessage false ns t) = s := by
          simp [stepWaiter, hcomp]
        rw [hs] at h
        exact absurd rfl h
      | true =>
        rw [him] at h
        rw [stepWaiter_pubsub_eq s true ns t hcomp rfl] at h ⊢
        split_ifs at h ⊢
        · rfl
        · rfl
        · exact absurd rfl h
        · exact absurd rfl h
    | check t =>
      rw [stepWaiter_check_eq s t hcomp] at h
      exfalso
      apply h
      split_ifs <;> simp [resolveFalse]

theorem waiter_check_timeout (s : RequestFileWaiter) (t : Nat)
    (hcomp : s.complete = false) (hres : s.result = none)
    (hfin : s.status ≠ .finished) :
    ((stepWaiter s (.check t)).result = some false ↔
      t - s.timer > stageDeadlineMsec s.status) := by
  rw [stepWaiter_check_eq s t hcomp]
  cases hst : s.status with
  | empty =>
    by_cases hdl : t - s.timer > 3000
    · simp [hst, hdl, resolveFalse, stageDeadlineMsec]
    · simp [hst, hdl, resolveFalse, stageDeadlineMsec, hres]
  | pending =>
    by_cases hdl : t - s.timer > 30000
    · simp [hst, hdl, resolveFalse, stageDeadlineMsec]
    · simp [hst, hdl, resolveFalse, stageDeadlineMsec, hres]
  | started =>
    by_cases hdl : t - s.timer > 30000
    · simp [hst, hdl, resolveFalse, stageDeadlineMsec]
    · simp [hst, hdl, resolveFalse, stageDeadlineMsec, hres]
  | finished => exact absurd hst hfin

/-- Claim C7: in the requestFile waiter, the stage only advances in the order
empty, pending, started, finished and never regresses (per step and along
any event trace); each status change resets the deadline timer to the event
time; along any trace from the initial state the waiter has resolved true
exactly when the stage has reached finished; and an unresolved waiter at a
check iteration resolves false exactly when the elapsed time in the current
stage exceeds its deadline (3000 ms in empty, 30000 ms in pending and in
started). -/
theorem C7_requestFile_waiter :
    (∀ (s : RequestFileWaiter) (e : WaiterEvent),
      stageFromStatus s.status ≤ stageFromStatus (stepWaiter s e).status) ∧
    (∀ (s : RequestFileWaiter) (evs : List WaiterEvent),
      stageFromStatus s.status ≤ stageFromStatus (runWaiter s evs).status) ∧
    (∀ (s : RequestFileWaiter) (e : WaiterEvent),
      (stepWaiter s e).status ≠ s.status → (stepWaiter s e).timer = eventTime e) ∧
    (∀ (t0 : Nat) (evs : List WaiterEvent),
      ((runWaiter (initWaiter t0) evs).result = some true ↔
        (runWaiter (initWaiter t0) evs).status = .finished)) ∧
    (∀ (s : RequestFileWaiter) (t : Nat),
      s.complete = false → s.result = none → s.status ≠ .finished →
      ((stepWaiter s (.check t)).result = some false ↔
        t - s.timer > stageDeadlineMsec s.status)) := by
  refine ⟨waiter_step_stage_le, ?_, waiter_step_timer_reset, ?_, waiter_check_timeout⟩
  · intro s evs
    exact waiter_run_stage_le evs s
  · intro t0 evs
    exact (waiterInv_run (initWaiter t0) evs (waiterInv_init t0)).1

theorem C7_requestFile_waiter_witness :
    ((runWaiter (initWaiter 5)
        [WaiterEvent.pubsubMessage true .pending 1000,
         WaiterEvent.pubsubMessage true .finished 2000]).result = some true ↔
      (runWaiter (initWaiter 5)
        [WaiterEvent.pubsubMessage true .pending 1000,
         WaiterEvent.pubsubMessage true .finished 2000]).status = .finished) ∧
    (stepWaiter (initWaiter 0) (.check 4000)).result = some false :=
  ⟨C7_requestFile_waiter.2.2.2.1 5
      [WaiterEvent.pubsubMessage true .pending 1000,
       WaiterEvent.pubsubMessage true .finished 2000],
   (C7_requestFile_waiter.2.2.2.2 (initWaiter 0) 4000 rfl rfl (by decide)).mpr (by decide)⟩

/- ---- C2 helper lemmas ---- -/

theorem emitLoop_nil (hash : List Nat → String) (final : Bool) (fuel b1 : Nat) :
    emitLoop hash final fuel [] b1 = ([], [], b1) := by
  cases fuel <;> rfl

theorem emitLoop_cons_full (hash : List Nat → String) (final : Bool)
    (fuel : Nat) (a : Nat) (d2 : List Nat) (b1 : Nat)
    (hx : ((a :: d2).take chunkSize).length = chunkSize) :
    emitLoop hash final (fuel + 1) (a :: d2) b1 =
      (⟨b1, b1 + chunkSize, hash ((a :: d2).take chunkSize)⟩ ::
        (emitLoop hash final fuel ((a :: d2).drop chunkSize) (b1 + chunkSize)).1,
       (emitLoop hash final fuel ((a :: d2).drop chunkSize) (b1 + chunkSize)).2.1,
       (emitLoop hash final fuel ((a :: d2).drop chunkSize) (b1 + chunkSize)).2.2) := by
  simp [emitLoop, hx]

theorem emitLoop_cons_final (hash : List Nat → String)
    (fuel : Nat) (a : Nat) (d2 : List Nat) (b1 : Nat) :
    emitLoop hash true (fuel + 1) (a :: d2) b1 =
      (⟨b1, b1 + ((a :: d2).take chunkSize).length,
          hash ((a :: d2).take chunkSize)⟩ ::
        (emitLoop hash true fuel ((a :: d2).drop chunkSize)
          (b1 + ((a :: d2).take chunkSize).length)).1,
       (emitLoop hash true fuel ((a :: d2).drop chunkSize)
          (b1 + ((a :: d2).take chunkSize).length)).2.1,
       (emitLoop hash true fuel ((a :: d2).drop chunkSize)
          (b1 + ((a :: d2).take chunkSize).length)).2.2) := by
  simp [emitLoop]

theorem emitLoop_cons_short (hash : List Nat → String)
    (fuel : Nat) (a : Nat) (d2 : List Nat) (b1 : Nat)
    (hlt : (a :: d2).length < chunkSize) :
    emitLoop hash false (fuel + 1) (a :: d2) b1 =
      ([], [(a :: d2).take chunkSize], b1) := by
  have h2 : d2.length + 1 < chunkSize := by simpa using hlt
  simp [emitLoop, h2]

theorem emitLoop_false_spec (hash : List Nat → String) :
    ∀ (fuel : Nat) (d : List Nat) (b1 : Nat), d.length ≤ fuel →
      ∃ cs bufs b1x,
        emitLoop hash false fuel d b1 = (cs, bufs, b1x) ∧
        chunksFullFrom cs b1 b1x ∧ b1 ≤ b1x ∧
        (b1x - b1) + bufs.flatten.length = d.length ∧
        bufs.flatten.length < chunkSize := by
  intro fuel
  induction fuel with
  | zero =>
    intro d b1 hd
    have hdn : d = [] := List.eq_nil_of_length_eq_zero (Nat.le_zero.mp hd)
    subst hdn
    refine ⟨[], [], b1, rfl, rfl, le_refl _, by simp, ?_⟩
    simp only [List.flatten_nil, List.length_nil, chunkSize]
    omega
  | succ fuel ih =>
    intro d b1 hd
    cases d with
    | nil =>
      refine ⟨[], [], b1, rfl, rfl, le_refl _, by simp, ?_⟩
      simp only [List.flatten_nil, List.length_nil, chunkSize]
      omega
    | cons a d2 =>
      have hmin := List.length_take chunkSize (a :: d2)
      by_cases hx : ((a :: d2).take chunkSize).length = chunkSize
      · have hcs : chunkSize ≤ (a :: d2).length := by
          rw [hmin] at hx
          omega
        obtain ⟨cs, bufs, b1x, heq, hfull, hle, hlen, hrem⟩ :=
          ih ((a :: d2).drop chunkSize) (b1 + chunkSize)
            (by rw [List.length_drop]; simp only [chunkSize] at hcs ⊢; omega)
        rw [emitLoop_cons_full hash false fuel a d2 b1 hx, heq]
        refine ⟨⟨b1, b1 + chunkSize, hash ((a :: d2).take chunkSize)⟩ :: cs,
          bufs, b1x, rfl, ⟨rfl, rfl, hfull⟩, ?_, ?_, hrem⟩
        · omega
        · rw [List.length_drop] at hlen
          simp only [List.length_cons] at hcs hlen ⊢
          omega
      · have hlt : (a :: d2).length < chunkSize := by
          rw [hmin] at hx
          omega
        rw [emitLoop_cons_short hash fuel a d2 b1 hlt]
        have htake : (a :: d2).take chunkSize = a :: d2 :=
          List.take_of_length_le (le_of_lt hlt)
        refine ⟨[], [(a :: d2).take chunkSize], b1, rfl, rfl, le_refl _, ?_, ?_⟩
        · simp [htake]
        · simp [htake]
          exact hlt

theorem chunksFullFrom_append :
    ∀ (A : List FileManifestChunk) (b0 b1 b2 : Nat) (cs : List FileManifestChunk),
      chunksFullFrom A b0 b1 → chunksFullFrom cs b1 b2 →
      chunksFullFrom (A ++ cs) b0 b2 := by
  intro A
  induction A with
  | nil =>
    intro b0 b1 b2 cs hA hcs
    have hb : b1 = b0 := hA
    rw [List.nil_append, ← hb]
    exact hcs
  | cons c rest ih =>
    intro b0 b1 b2 cs hA hcs
    obtain ⟨hst, hsp, hrest⟩ := hA
    exact ⟨hst, hsp, ih (b0 + chunkSize) b1 b2 cs hrest hcs⟩

theorem updateManifestChunks_false_inv (hash : List Nat → String)
    (st1 : ManifestBuilderState)
    (hfull : chunksFullFrom st1.chunks 0 st1.byte1)
    (hb2 : st1.byte2 = st1.byte1 + st1.buffers.flatten.length) :
    manifestInv (updateManifestChunks hash false st1) ∧
    (updateManifestChunks hash false st1).byte2 = st1.byte2 := by
  unfold updateManifestChunks
  by_cases hg : chunkSize ≤ st1.byte2 - st1.byte1 ∨ (false = true ∧ st1.byte1 < st1.byte2)
  · rw [if_pos hg]
    obtain ⟨cs, bufs, b1x, heq, hf2, hle, hlen, hrem⟩ :=
      emitLoop_false_spec hash (st1.buffers.flatten.length + 1) st1.buffers.flatten
        st1.byte1 (by omega)
    rw [heq]
    refine ⟨⟨?_, ?_, ?_⟩, rfl⟩
    · exact chunksFullFrom_append st1.chunks 0 st1.byte1 b1x cs hfull hf2
    · show st1.byte2 = b1x + bufs.flatten.length
      omega
    · exact hrem
  · rw [if_neg hg]
    have hg1 : ¬ chunkSize ≤ st1.byte2 - st1.byte1 := fun hA => hg (Or.inl hA)
    refine ⟨⟨hfull, hb2, ?_⟩, rfl⟩
    omega

theorem manifestOnData_inv (hash : List Nat → String) (st : ManifestBuilderState)
    (buf : List Nat) (h : manifestInv st) :
    manifestInv (manifestOnData hash st buf) ∧
    (manifestOnData hash st buf).byte2 = st.byte2 + buf.length := by
  obtain ⟨hfull, hb2, hpend⟩ := h
  unfold manifestOnData
  have h2 := updateManifestChunks_false_inv hash
    { st with buffers := st.buffers ++ [buf], byte2 := st.byte2 + buf.length }
    hfull
    (by
      show st.byte2 + buf.length = st.byte1 + (st.buffers ++ [buf]).flatten.length
      rw [List.flatten_append]
      simp only [List.length_append, List.flatten_cons, List.flatten_nil, List.append_nil]
      omega)
  exact ⟨h2.1, h2.2⟩

theorem manifestInv_init : manifestInv initManifestState := by
  refine ⟨rfl, rfl, ?_⟩
  simp only [initManifestState, List.flatten_nil, List.length_nil, chunkSize]
  omega

theorem foldl_manifestOnData_inv (hash : List Nat → String)
    (bufs : List (List Nat)) :
    ∀ st : ManifestBuilderState, manifestInv st →
      manifestInv (bufs.foldl (manifestOnData hash) st) ∧
      (bufs.foldl (manifestOnData hash) st).byte2 = st.byte2 + bufs.flatten.length := by
  induction bufs with
  | nil => intro st h; exact ⟨h, by simp⟩
  | cons b rest ih =>
    intro st h
    obtain ⟨h1, h2⟩ := manifestOnData_inv hash st b h
    obtain ⟨h3, h4⟩ := ih (manifestOnData hash st b) h1
    refine ⟨h3, ?_⟩
    rw [List.foldl_cons] at *
    rw [h4, h2]
    simp only [List.flatten_cons, List.length_append]
    omega

theorem emitLoop_true_small (hash : List Nat → String) (fuel b1 : Nat)
    (a : Nat) (d2 : List Nat) (hle : (a :: d2).length ≤ chunkSize) :
    emitLoop hash true (fuel + 1) (a :: d2) b1 =
      ([⟨b1, b1 + (a :: d2).length, hash (a :: d2)⟩], [], b1 + (a :: d2).length) := by
  have htake : (a :: d2).take chunkSize = a :: d2 := List.take_of_length_le hle
  have hdrop : (a :: d2).drop chunkSize = [] := List.drop_eq_nil_of_le hle
  rw [emitLoop_cons_final hash fuel a d2 b1, htake, hdrop, emitLoop_nil]

theorem chunksPartition_of_full_append :
    ∀ (A : List FileManifestChunk) (b0 b1 n : Nat) (tail : List FileManifestChunk),
      chunksFullFrom A b0 b1 → chunksPartition tail b1 n →
      chunksPartition (A ++ tail) b0 n := by
  intro A
  induction A with
  | nil =>
    intro b0 b1 n tail hA htail
    have hb : b1 = b0 := hA
    rw [List.nil_append, ← hb]
    exact htail
  | cons c rest ih =>
    intro b0 b1 n tail hA htail
    obtain ⟨hst, hsp, hrest⟩ := hA
    refine ⟨hst, le_of_eq hsp, fun _ => hsp, ?_⟩
    rw [hsp]
    exact ih (b0 + chunkSize) b1 n tail hrest htail

theorem updateManifestChunks_true_spec (hash : List Nat → String)
    (st : ManifestBuilderState) (h : manifestInv st) :
    chunksPartition (updateManifestChunks hash true st).chunks 0 st.byte2 ∧
    (updateManifestChunks hash true st).byte2 = st.byte2 := by
  obtain ⟨hfull, hb2, hpend⟩ := h
  unfold updateManifestChunks
  by_cases hg : chunkSize ≤ st.byte2 - st.byte1 ∨ (true = true ∧ st.byte1 < st.byte2)
  · rw [if_pos hg]
    have hpos : 0 < st.buffers.flatten.length := by
      rcases hg with hg1 | hg2
      · omega
      · omega
    cases hd : st.buffers.flatten with
    | nil =>
      rw [hd] at hpos
      simp at hpos
    | cons a d2 =>
      rw [hd] at hb2 hpend
      rw [emitLoop_true_small hash ((a :: d2).length) st.byte1 a d2 (le_of_lt hpend)]
      refine ⟨?_, rfl⟩
      refine chunksPartition_of_full_append st.chunks 0 st.byte1 st.byte2
        [⟨st.byte1, st.byte1 + (a :: d2).length, hash (a :: d2)⟩] hfull ?_
      refine ⟨rfl, ?_, ?_, ?_⟩
      · show st.byte1 + (a :: d2).length ≤ st.byte1 + chunkSize
        omega
      · intro hne
        exact absurd rfl hne
      · show st.byte1 + (a :: d2).length = st.byte2
        omega
  · rw [if_neg hg]
    have hg2 : ¬ st.byte1 < st.byte2 := fun hlt => hg (Or.inr ⟨rfl, hlt⟩)
    have hb : st.byte1 = st.byte2 := by omega
    refine ⟨?_, rfl⟩
    have h3 := chunksPartition_of_full_append st.chunks 0 st.byte1 st.byte2 [] hfull hb
    simpa using h3

theorem chunksPartition_head_start (cs : List FileManifestChunk) (b0 n : Nat)
    (hp : chunksPartition cs b0 n) :
    ∀ h : 0 < cs.length, (cs.get ⟨0, h⟩).start = b0 := by
  intro h
  cases cs with
  | nil => simp at h
  | cons c rest => exact hp.1

theorem chunksPartition_contig :
    ∀ (cs : List FileManifestChunk) (b0 n : Nat), chunksPartition cs b0 n →
      ∀ i (h : i + 1 < cs.length),
        (cs.get ⟨i, Nat.lt_of_succ_lt h⟩).stop = (cs.get ⟨i + 1, h⟩).start := by
  intro cs
  induction cs with
  | nil => intro b0 n hp i h; simp at h
  | cons c rest ih =>
    intro b0 n hp i h
    obtain ⟨hst, hle, hfullc, hrest⟩ := hp
    cases i with
    | zero =>
      have hr : 0 < rest.length := by simp only [List.length_cons] at h; omega
      have h2 := chunksPartition_head_start rest c.stop n hrest hr
      simp only [List.get_cons_succ, List.get_cons_zero]
      exact h2.symm
    | succ j =>
      have hj : j + 1 < rest.length := by simp only [List.length_cons] at h; omega
      simp only [List.get_cons_succ]
      exact ih c.stop n hrest j hj

theorem chunksPartition_last :
    ∀ (cs : List FileManifestChunk) (b0 n : Nat), chunksPartition cs b0 n →
      ∀ c, cs.getLast? = some c → c.stop = n := by
  intro cs
  induction cs with
  | nil => intro b0 n hp c hc; simp at hc
  | cons c0 rest ih =>
    intro b0 n hp c hc
    obtain ⟨hst, hle, hfullc, hrest⟩ := hp
    cases rest with
    | nil =>
      simp only [List.getLast?_singleton, Option.some.injEq] at hc
      rw [← hc]
      exact hrest
    | cons c1 rest2 =>
      rw [List.getLast?_cons_cons] at hc
      exact ih c0.stop n hrest c hc

theorem chunksPartition_size_le :
    ∀ (cs : List FileManifestChunk) (b0 n : Nat), chunksPartition cs b0 n →
      ∀ c ∈ cs, c.stop - c.start ≤ chunkSize := by
  intro cs
  induction cs with
  | nil => intro b0 n hp c hc; simp at hc
  | cons c0 rest ih =>
    intro b0 n hp c hc
    obtain ⟨hst, hle, hfullc, hrest⟩ := hp
    rcases List.mem_cons.mp hc with h | h
    · subst h
      omega
    · exact ih c0.stop n hrest c h

theorem chunksPartition_full_of_not_last :
    ∀ (cs : List FileManifestChunk) (b0 n : Nat), chunksPartition cs b0 n →
      ∀ i (h : i + 1 < cs.length),
        (cs.get ⟨i, Nat.lt_of_succ_lt h⟩).stop -
          (cs.get ⟨i, Nat.lt_of_succ_lt h⟩).start = chunkSize := by
  intro cs
  induction cs with
  | nil => intro b0 n hp i h; simp at h
  | cons c0 rest ih =>
    intro b0 n hp i h
    obtain ⟨hst, hle, hfullc, hrest⟩ := hp
    cases i with
    | zero =>
      have hr : rest ≠ [] := by
        intro hnil
        rw [hnil] at h
        simp at h
      have h2 := hfullc hr
      show c0.stop - c0.start = chunkSize
      omega
    | succ j =>
      have hj : j + 1 < rest.length := by simp only [List.length_cons] at h; omega
      simp only [List.get_cons_succ]
      exact ih c0.stop n hrest j hj

/-- Claim C2: for every byte sequence ingested via storeFileFromStream
(presented as any sequence of data buffers), the emitted manifest chunks
partition the input: the builder's byte2 equals the total input length, an
empty chunk list occurs only for empty input, the first chunk starts at 0,
each chunk ends where the next begins, the last chunk ends at the total
size, every chunk spans at most chunkSize bytes, every chunk but the last
spans exactly chunkSize = 20000000 bytes, and the returned manifestSha1 is
null exactly when at most one chunk was emitted. -/
theorem C2_storeFileFromStream_manifest (hash : List Nat → String)
    (mhash : Nat → List FileManifestChunk → String) (bufs : List (List Nat)) :
    ((processStream hash bufs).byte2 = bufs.flatten.length) ∧
    ((processStream hash bufs).chunks = [] → bufs.flatten.length = 0) ∧
    (∀ h : 0 < (processStream hash bufs).chunks.length,
      ((processStream hash bufs).chunks.get ⟨0, h⟩).start = 0) ∧
    (∀ i (h : i + 1 < (processStream hash bufs).chunks.length),
      ((processStream hash bufs).chunks.get ⟨i, Nat.lt_of_succ_lt h⟩).stop =
        ((processStream hash bufs).chunks.get ⟨i + 1, h⟩).start) ∧
    (∀ c, (processStream hash bufs).chunks.getLast? = some c →
      c.stop = bufs.flatten.length) ∧
    (∀ c ∈ (processStream hash bufs).chunks, c.stop - c.start ≤ chunkSize) ∧
    (∀ i (h : i + 1 < (processStream hash bufs).chunks.length),
      ((processStream hash bufs).chunks.get ⟨i, Nat.lt_of_succ_lt h⟩).stop -
        ((processStream hash bufs).chunks.get ⟨i, Nat.lt_of_succ_lt h⟩).start =
        chunkSize) ∧
    (streamManifestSha1 hash mhash bufs = none ↔
      (processStream hash bufs).chunks.length ≤ 1) := by
  obtain ⟨hInv, hb2⟩ :=
    foldl_manifestOnData_inv hash bufs initManifestState manifestInv_init
  obtain ⟨hpart, hb2f⟩ :=
    updateManifestChunks_true_spec hash (bufs.foldl (manifestOnData hash) initManifestState) hInv
  have htot : (bufs.foldl (manifestOnData hash) initManifestState).byte2 =
      bufs.flatten.length := by
    rw [hb2]
    simp [initManifestState]
  rw [htot] at hpart hb2f
  refine ⟨hb2f, ?_, chunksPartition_head_start _ 0 _ hpart,
    chunksPartition_contig _ 0 _ hpart, chunksPartition_last _ 0 _ hpart,
    chunksPartition_size_le _ 0 _ hpart,
    chunksPartition_full_of_not_last _ 0 _ hpart, ?_⟩
  · intro hnil
    have hnil2 : (updateManifestChunks hash true
        (bufs.foldl (manifestOnData hash) initManifestState)).chunks = [] := hnil
    rw [hnil2] at hpart
    exact hpart.symm
  · unfold streamManifestSha1
    by_cases h1 : 1 < (processStream hash bufs).chunks.length
    · rw [if_pos h1]
      constructor
      · intro hcon
        exact absurd hcon (by simp)
      · intro hle
        omega
    · rw [if_neg h1]
      constructor
      · intro _
        omega
      · intro _
        rfl

theorem C2_storeFileFromStream_manifest_witness :
    (processStream hashArb [[1, 2], [3]]).byte2 =
      ([[1, 2], [3]] : List (List Nat)).flatten.length ∧
    (streamManifestSha1 hashArb (fun _ _ => "m") [[1, 2], [3]] = none ↔
      (processStream hashArb [[1, 2], [3]]).chunks.length ≤ 1) ∧
    0 < (processStream hashArb [[1, 2], [3]]).chunks.length ∧
    ((processStream hashArb [[1, 2], [3]]).chunks.get ⟨0, by decide⟩).start = 0 :=
  ⟨(C2_storeFileFromStream_manifest hashArb (fun _ _ => "m") [[1, 2], [3]]).1,
   (C2_storeFileFromStream_manifest hashArb (fun _ _ => "m") [[1, 2], [3]]).2.2.2.2.2.2.2,
   by decide,
   (C2_storeFileFromStream_manifest hashArb (fun _ _ => "m") [[1, 2], [3]]).2.2.1 (by decide)⟩

end Kachery
